import Mathlib

/-!
Verification development for the pribambase add-on sources.

The Python sources are shallowly embedded: pure algorithmic parts become
Lean functions over `Int`/`Nat`/`ℚ` (Python floats are modelled by exact
rationals, so the algebraic blend/timing formulas are stated exactly);
the flat Blender pixel buffer is modelled as a total function from the
integer address to the stored value; numpy reshape/repeat/ravel become
the corresponding list operations.
-/

/- ### draw.py : Bresenham line generator -/

/-- Loop of `line` (src/draw.py) for the `abs(w) > abs(h)` branch:
steps `x` by `dx` every iteration, conditionally steps `y` by `dy`
driven by the accumulator `pk`; `n` is the remaining iteration count
(`range(0, w_abs)`). Yields the points produced after the initial one. -/
def lineLoopX (wAbs hAbs : Nat) (dx dy : Int) : Nat → Int → Int → Int → List (Int × Int)
  | 0, _, _, _ => []
  | n + 1, x, y, pk =>
      let x1 := x + dx
      if pk < 0 then
        (x1, y) :: lineLoopX wAbs hAbs dx dy n x1 y (pk + 2 * (hAbs : Int))
      else
        let y1 := y + dy
        (x1, y1) :: lineLoopX wAbs hAbs dx dy n x1 y1 (pk + 2 * (hAbs : Int) - 2 * (wAbs : Int))

/-- Loop of `line` (src/draw.py) for the `else` branch: steps `y` every
iteration, conditionally steps `x`. -/
def lineLoopY (wAbs hAbs : Nat) (dx dy : Int) : Nat → Int → Int → Int → List (Int × Int)
  | 0, _, _, _ => []
  | n + 1, x, y, pk =>
      let y1 := y + dy
      if pk < 0 then
        (x, y1) :: lineLoopY wAbs hAbs dx dy n x y1 (pk + 2 * (wAbs : Int))
      else
        let x1 := x + dx
        (x1, y1) :: lineLoopY wAbs hAbs dx dy n x1 y1 (pk + 2 * (wAbs : Int) - 2 * (hAbs : Int))

/-- `line(x1, y1, x2, y2)` from src/draw.py: the Bresenham line stepping
generator, returned as the list of yielded points. -/
def line (x1 y1 x2 y2 : Int) : List (Int × Int) :=
  let w := x2 - x1
  let h := y2 - y1
  let wAbs := w.natAbs
  let hAbs := h.natAbs
  let dx : Int := if w < 0 then -1 else 1
  let dy : Int := if h < 0 then -1 else 1
  if wAbs > hAbs then
    (x1, y1) :: lineLoopX wAbs hAbs dx dy wAbs x1 y1 (2 * (hAbs : Int) - (wAbs : Int))
  else
    (x1, y1) :: lineLoopY wAbs hAbs dx dy hAbs x1 y1 (2 * (wAbs : Int) - (hAbs : Int))

/- ### draw.py : blend modes -/

/-- An RGBA color (Python `color[0..3]`), with exact rational channels. -/
structure Color where
  r : ℚ
  g : ℚ
  b : ℚ
  a : ℚ
  deriving DecidableEq

/-- A Blender image as seen by src/draw.py: its width (`img.size[0]`) and
its flat float pixel buffer (`img.pixels`), modelled as a total map from
the integer address to the stored value. -/
structure Img where
  width : Int
  pix : Int → ℚ

/-- Loop body of `draw_replace` (src/draw.py): writes the color channels at
`addr = 4 * (img.size[0] * y + x)`, the alpha only when `replace_alpha`. -/
def replace_step (W : Int) (color : Color) (replace_alpha : Bool) (p : Int → ℚ)
    (d : Int × Int) : Int → ℚ :=
  let addr := 4 * (W * d.2 + d.1)
  let p0 := Function.update p addr color.r
  let p1 := Function.update p0 (addr + 1) color.g
  let p2 := Function.update p1 (addr + 2) color.b
  if replace_alpha then Function.update p2 (addr + 3) color.a else p2

/-- `draw_replace(img, dots, color, replace_alpha)` from src/draw.py. -/
def draw_replace (img : Img) (dots : List (Int × Int)) (color : Color)
    (replace_alpha : Bool) : Img :=
  { img with pix := dots.foldl (replace_step img.width color replace_alpha) img.pix }

/-- Loop body of `draw_alpha` (src/draw.py): composites `color` onto the
pixel at `addr`. The Python code writes the channels one by one after
computing `da` and `outa` from the not-yet-written values; since the four
addresses are distinct this equals reading all old values first. -/
def alphaBlendPix (p : Int → ℚ) (addr : Int) (color : Color) : Int → ℚ :=
  let a := color.a
  let da := a * (1 - p (addr + 3))
  let outa := p (addr + 3) + da
  let p0 := Function.update p addr ((p addr * a + color.r * da) / outa)
  let p1 := Function.update p0 (addr + 1) ((p (addr + 1) * a + color.g * da) / outa)
  let p2 := Function.update p1 (addr + 2) ((p (addr + 2) * a + color.b * da) / outa)
  Function.update p2 (addr + 3) outa

/-- `draw_alpha(img, dots, color)` from src/draw.py: returns unchanged if
`color[3] == 0`, otherwise composites every visited dot in order. -/
def draw_alpha (img : Img) (dots : List (Int × Int)) (color : Color) : Img :=
  if color.a = 0 then img
  else
    { img with
      pix := dots.foldl (fun p d => alphaBlendPix p (4 * (img.width * d.2 + d.1)) color) img.pix }

/-- `draw_simple(img, dots, color)` from src/draw.py. -/
def draw_simple (img : Img) (dots : List (Int × Int)) (color : Color) : Img :=
  if color.a = 1 then draw_replace img dots color true
  else if color.a = 0 then draw_replace img dots ⟨0, 0, 0, 0⟩ true
  else draw_alpha img dots color

/- ### numpy array operations used by ui_3d.py / util.py -/

/-- Splits a flat list into `m` consecutive rows of `n` entries each:
the semantics of a numpy reshape to shape `(m, n)` (for a buffer of
exactly `m * n` entries). -/
def npRows {α : Type} : Nat → Nat → List α → List (List α)
  | 0, _, _ => []
  | m + 1, n, xs => xs.take n :: npRows m n (xs.drop n)

/- ### ui_3d.py : scale_image -/

/-- `scale_image(image, scale)` from src/ui_3d.py, at per-pixel granularity
(each list entry is one RGBA pixel, untouched along the last numpy axis):
`px.shape = (w, h, 4)` (w rows of h entries of the flat buffer), then
`px.repeat(scale, 0).repeat(scale, 1)`, then `.ravel()` is written back
into the image resized to `(w * scale, h * scale)`. -/
def scale_image {α : Type} (w h scale : Nat) (px : List α) : List α :=
  let arr0 := npRows w h px
  let arr1 := arr0.flatMap (fun row => List.replicate scale row)
  let arr2 := arr1.map (fun row => row.flatMap (fun v => List.replicate scale v))
  arr2.flatten

/- ### util.py : pixel conversion of SB_OT_update_image.modal_execute -/

/-- Pixel conversion and vertical flip from `SB_OT_update_image.modal_execute`
(src/util.py): `pixels = np.float32(pixels) / 255.0`, then
`pixels.shape = (h, pixels.size // h)` and `pixels[::-1,:].ravel()`. -/
def convert_pixels (h : Nat) (data : List Nat) : List ℚ :=
  ((npRows h (data.length / h) (data.map (fun b : Nat => (b : ℚ) / 255))).reverse).flatten

/- ### util.py : image identity resolution and update_image -/

/-- A Blender image as seen by src/util.py. `sb_source` models
`img.sb_props.source` (empty string when unset); `packed` models
`img.packed_file is not None`. -/
structure BImage where
  sb_source : String
  packed : Bool
  filepath : String
  name : String
  has_data : Bool
  use_fake_user : Bool
  size : Nat × Nat
  frame : Int
  pixels : List ℚ

/-- `image_name(img)` from src/util.py. `normpath` stands for the Python
path normalisation `os.path.normpath` (composed with `bpy.path.abspath`
for document-relative paths); it is a third-party function, kept
uninterpreted. `sb_props.source_abs` (the absolute form of the tracked
source, defined outside src/) is modelled as the tracked source itself,
fed through the same normalisation. -/
def image_name (normpath : String → String) (img : BImage) : String :=
  if img.sb_source ≠ "" then normpath img.sb_source
  else if ¬ img.packed ∧ img.filepath ≠ "" then normpath img.filepath
  else img.name

/-- Replace the first list entry satisfying `p` by its image under `f`;
models Python's `next(i for i in bpy.data.images if ...)` followed by an
in-place mutation of the found element, with `StopIteration` leaving the
list untouched. -/
def update_first {α : Type} (p : α → Bool) (f : α → α) : List α → List α
  | [] => []
  | x :: xs => if p x then f x :: xs else x :: update_first p f xs

/-- Mutation performed by `SB_OT_update_image.modal_execute` (src/util.py)
on the image found by identity: bootstrap packed data when `has_data` is
false (temp-file load + pack at size `(w, h)`), else resize in place when
the size differs; set the frame unless it is the `-1` sentinel; store the
converted, vertically flipped pixel buffer. -/
def update_image_step (w h : Nat) (frame : Int) (data : List Nat) (img : BImage) : BImage :=
  let img1 :=
    if ¬ img.has_data then
      { img with has_data := true, packed := true, filepath := "",
                 use_fake_user := true, size := (w, h) }
    else if img.size ≠ (w, h) then { img with size := (w, h) } else img
  let img2 := if frame ≠ -1 then { img1 with frame := frame } else img1
  { img2 with pixels := convert_pixels h data }

/-- `SB_OT_update_image.modal_execute` (src/util.py) acting on the open
image list: resolve the target by identity; if absent (`StopIteration`),
return with no mutation at all; otherwise update the first match. -/
def update_image_apply (normpath : String → String) (images : List BImage)
    (w h : Nat) (name : String) (frame : Int) (data : List Nat) : List BImage :=
  update_first (fun i => image_name normpath i == name) (update_image_step w h frame data) images

/- ### util.py : keyframe placement of SB_OT_update_spritesheet.update_actions -/

/-- `fps = context.scene.render.fps / context.scene.render.fps_base`
(src/util.py, `update_actions`). -/
def scene_fps (renderFps renderFpsBase : ℚ) : ℚ := renderFps / renderFpsBase

/-- `tag_frames.append(tag_frames[-1])` from `update_actions` (src/util.py):
one extra terminal keyframe holding the last frame's duration. -/
def with_terminal (frames : List (ℚ × ℚ)) : List (ℚ × ℚ) :=
  frames ++ frames.getLast?.toList

/-- Keyframe placement loop of `update_actions` (src/util.py): for each
`(n, dt)` pair, `point.co = (first + time * fps / 1000, n)` and then
`time += dt`. Returns the list of keyframe coordinates. -/
def keyframe_co (first fps : ℚ) : ℚ → List (ℚ × ℚ) → List (ℚ × ℚ)
  | _, [] => []
  | time, (n, dt) :: rest => (first + time * fps / 1000, n) :: keyframe_co first fps (time + dt) rest

/- ### messaging/handle.py : Spritesheet grid -/

/-- Models `math.ceil(length ** 0.5)` from `Spritesheet.execute`
(src/messaging/handle.py). For `length` in the `uint32` wire range the
double-precision square root is correctly rounded and never crosses an
integer boundary, so the float computation agrees with the exact
ceiling of the square root, which this definition computes. -/
def ceil_sqrt (n : Nat) : Nat :=
  if Nat.sqrt n * Nat.sqrt n = n then Nat.sqrt n else Nat.sqrt n + 1

/-- `count_x = math.ceil(length ** 0.5)` (src/messaging/handle.py). -/
def count_x (length : Nat) : Nat := ceil_sqrt length

/-- `count_y = math.ceil(length / count_x)` (src/messaging/handle.py); the
exact ceiling division, which the double-precision quotient reproduces
for `uint32` operands. -/
def count_y (length : Nat) : Nat := (length + count_x length - 1) / count_x length

/- ### messaging/handle.py : ChangeName -/

/-- A Blender image as seen by `ChangeName.execute` (src/messaging/handle.py). -/
structure NImage where
  source_abs : String
  filepath : String
  name : String
  deriving DecidableEq

/-- Suffix test on the code-point sequence of a string: `e` is a suffix
of `s`. -/
def str_ends_with (s e : String) : Bool :=
  s.data.drop (s.data.length - e.data.length) == e.data

/-- `re.search(r"\.(?:png|jpg|jpeg|bmp|tga)$", new_name)` from
`ChangeName.execute` (src/messaging/handle.py): a case-sensitive suffix
match against the five raster extensions. -/
def matches_raster_ext (s : String) : Bool :=
  str_ends_with s ".png" || str_ends_with s ".jpg" || str_ends_with s ".jpeg" ||
    str_ends_with s ".bmp" || str_ends_with s ".tga"

/-- Loop body of `ChangeName.execute` (src/messaging/handle.py): when the
old name equals the tracked source, the load path, or the resource name,
set the tracked source to the new name (`img.sb_props.source_set`, defined
outside src/ — modelled from the spec: "update its tracked source to new
name") and set or clear the load path depending on the extension match. -/
def changeNameImage (old_name new_name : String) (img : NImage) : NImage :=
  if old_name = img.source_abs ∨ old_name = img.filepath ∨ old_name = img.name then
    { img with
      source_abs := new_name,
      filepath := if matches_raster_ext new_name then new_name else "" }
  else img

/-- `ChangeName.execute` (src/messaging/handle.py) acting on all open
images: each image is examined and updated independently. -/
def changeName_execute (old_name new_name : String) (imgs : List NImage) : List NImage :=
  imgs.map (changeNameImage old_name new_name)

/-- The claim's reading of the extension check: a case-INsensitive suffix
match (stated from the spec's words, for comparison with
`matches_raster_ext`, which embeds the code). -/
def spec_matches_raster_ext_ci (s : String) : Bool :=
  matches_raster_ext (String.mk (s.data.map Char.toLower))

/- ### Helper lemmas: the Bresenham loops -/

theorem lineLoopX_length (w h : Nat) (dx dy : Int) :
    ∀ (n : Nat) (x y pk : Int), (lineLoopX w h dx dy n x y pk).length = n := by
  intro n
  induction n with
  | zero => intro x y pk; rfl
  | succ n ih =>
      intro x y pk
      simp only [lineLoopX]
      split <;> simp [ih]

theorem lineLoopY_eq_swap (w h : Nat) (dx dy : Int) :
    ∀ (n : Nat) (x y pk : Int),
      lineLoopY w h dx dy n x y pk = (lineLoopX h w dy dx n y x pk).map Prod.swap := by
  intro n
  induction n with
  | zero => intro x y pk; rfl
  | succ n ih =>
      intro x y pk
      simp only [lineLoopX, lineLoopY]
      split <;> simp [ih]

/-- The Bresenham invariant: with `minor ≤ major`, `1 ≤ major`, remaining
major steps `r` and remaining minor steps `s`, an error accumulator `pk`
satisfying the stated equation and bounds leads the loop to end exactly
`r` major strides and `s` minor strides away. -/
theorem lineLoopX_last (w h : Nat) (dx dy : Int) :
    ∀ (r s : Nat) (x y pk : Int),
      h ≤ w → 1 ≤ w →
      pk = 2 * (h : Int) - w + 2 * s * w - 2 * r * h →
      2 * (h : Int) - 2 * w ≤ pk → pk ≤ 2 * (h : Int) - 1 →
      ((x, y) :: lineLoopX w h dx dy r x y pk).getLast? =
        some (x + r * dx, y + s * dy) := by
  intro r
  induction r with
  | zero =>
      intro s x y pk hhw hw heq hlb hub
      cases s with
      | zero => simp [lineLoopX]
      | succ t =>
          exfalso
          push_cast at heq
          have hw1 : (1 : ℤ) ≤ (w : ℤ) := by exact_mod_cast hw
          have ht : (0 : ℤ) ≤ (t : ℤ) := by positivity
          nlinarith [mul_nonneg ht (by positivity : (0 : ℤ) ≤ (w : ℤ))]
  | succ r ih =>
      intro s x y pk hhw hw heq hlb hub
      simp only [lineLoopX]
      rcases lt_or_ge pk 0 with hpk | hpk
      · rw [if_pos hpk, List.getLast?_cons_cons,
          ih s (x + dx) y (pk + 2 * (h : Int)) hhw hw
            (by push_cast at heq ⊢; linarith) (by linarith)
            (by linarith)]
        simp only [Option.some.injEq, Prod.mk.injEq]
        refine ⟨by push_cast; ring, trivial⟩
      · rw [if_neg (not_lt.mpr hpk)]
        cases s with
        | zero =>
            exfalso
            push_cast at heq
            have hw1 : (1 : ℤ) ≤ (w : ℤ) := by exact_mod_cast hw
            have hr : (0 : ℤ) ≤ (r : ℤ) := by positivity
            nlinarith [mul_nonneg hr (by positivity : (0 : ℤ) ≤ (h : ℤ))]
        | succ t =>
            rw [List.getLast?_cons_cons,
              ih t (x + dx) (y + dy) (pk + 2 * (h : Int) - 2 * (w : Int)) hhw hw
                (by push_cast at heq ⊢; linarith)
                (by linarith)
                (by
                  have hwh : (h : ℤ) ≤ (w : ℤ) := by exact_mod_cast hhw
                  linarith)]
            simp only [Option.some.injEq, Prod.mk.injEq]
            constructor <;> (push_cast; ring)

theorem natAbs_mul_sign (a : Int) : (a.natAbs : Int) * (if a < 0 then (-1 : Int) else 1) = a := by
  split <;> omega

/-- C1: for every pair of integer points, the line generator starts at
`(x1, y1)`, ends exactly at `(x2, y2)`, and yields
`max |x2 - x1| |y2 - y1| + 1` points; in particular from `(0,0)` to
`(5,2)` it yields exactly 6 points, the first `(0,0)`, the last `(5,2)`. -/
theorem line_start_end_length :
    (∀ x1 y1 x2 y2 : Int,
      (line x1 y1 x2 y2).head? = some (x1, y1) ∧
      (line x1 y1 x2 y2).getLast? = some (x2, y2) ∧
      (line x1 y1 x2 y2).length = max (x2 - x1).natAbs (y2 - y1).natAbs + 1) ∧
    (line 0 0 5 2).length = 6 ∧
    (line 0 0 5 2).head? = some (0, 0) ∧
    (line 0 0 5 2).getLast? = some (5, 2) := by
  have main : ∀ x1 y1 x2 y2 : Int,
      (line x1 y1 x2 y2).head? = some (x1, y1) ∧
      (line x1 y1 x2 y2).getLast? = some (x2, y2) ∧
      (line x1 y1 x2 y2).length = max (x2 - x1).natAbs (y2 - y1).natAbs + 1 := by
    intro x1 y1 x2 y2
    simp only [line]
    rcases lt_or_ge (y2 - y1).natAbs (x2 - x1).natAbs with hlt | hge
    · rw [if_pos hlt]
      refine ⟨rfl, ?_, ?_⟩
      · rw [lineLoopX_last (x2 - x1).natAbs (y2 - y1).natAbs _ _
            (x2 - x1).natAbs (y2 - y1).natAbs x1 y1 _
            (le_of_lt hlt) (by omega) (by push_cast; ring)
            (by omega) (by omega)]
        simp only [Option.some.injEq, Prod.mk.injEq]
        constructor
        · rw [natAbs_mul_sign]; ring
        · rw [natAbs_mul_sign]; ring
      · simp only [List.length_cons, lineLoopX_length]
        omega
    · rw [if_neg (by omega)]
      refine ⟨rfl, ?_, ?_⟩
      · rcases Nat.eq_zero_or_pos (y2 - y1).natAbs with hz | hpos
        · have hwz : (x2 - x1).natAbs = 0 := by omega
          have hx : x2 = x1 := by omega
          have hy : y2 = y1 := by omega
          rw [hz]
          simp [lineLoopY, hx, hy]
        · rw [lineLoopY_eq_swap]
          have hswap : (x1, y1) = Prod.swap (y1, x1) := rfl
          rw [hswap, ← List.map_cons, List.getLast?_map,
            lineLoopX_last (y2 - y1).natAbs (x2 - x1).natAbs _ _
              (y2 - y1).natAbs (x2 - x1).natAbs y1 x1 _
              hge hpos (by push_cast; ring)
              (by omega) (by omega)]
          simp only [Option.map_some', Prod.swap_prod_mk, Option.some.injEq, Prod.mk.injEq]
          constructor
          · rw [natAbs_mul_sign]; ring
          · rw [natAbs_mul_sign]; ring
      · simp only [List.length_cons, lineLoopY_eq_swap, List.length_map, lineLoopX_length]
        omega
  refine ⟨main, ?_, ?_, ?_⟩
  · decide
  · decide
  · decide

/- ### Helper lemmas: pixel writes -/

theorem alphaBlendPix_apply (p : Int → ℚ) (addr : Int) (c : Color) (j : Int) :
    alphaBlendPix p addr c j =
      if j = addr + 3 then p (addr + 3) + c.a * (1 - p (addr + 3))
      else if j = addr + 2 then
        (p (addr + 2) * c.a + c.b * (c.a * (1 - p (addr + 3)))) /
          (p (addr + 3) + c.a * (1 - p (addr + 3)))
      else if j = addr + 1 then
        (p (addr + 1) * c.a + c.g * (c.a * (1 - p (addr + 3)))) /
          (p (addr + 3) + c.a * (1 - p (addr + 3)))
      else if j = addr then
        (p addr * c.a + c.r * (c.a * (1 - p (addr + 3)))) /
          (p (addr + 3) + c.a * (1 - p (addr + 3)))
      else p j := by
  simp only [alphaBlendPix]
  split_ifs with h3 h2 h1 h0
  · subst h3; rw [Function.update_same]
  · subst h2
    rw [Function.update_noteq (by omega), Function.update_same]
  · subst h1
    rw [Function.update_noteq (by omega), Function.update_noteq (by omega),
      Function.update_same]
  · subst h0
    rw [Function.update_noteq (by omega), Function.update_noteq (by omega),
      Function.update_noteq (by omega), Function.update_same]
  · rw [Function.update_noteq h3, Function.update_noteq h2, Function.update_noteq h1,
      Function.update_noteq h0]

theorem replace_step_true_apply (W : Int) (c : Color) (p : Int → ℚ) (d : Int × Int) (j : Int) :
    replace_step W c true p d j =
      if j = 4 * (W * d.2 + d.1) + 3 then c.a
      else if j = 4 * (W * d.2 + d.1) + 2 then c.b
      else if j = 4 * (W * d.2 + d.1) + 1 then c.g
      else if j = 4 * (W * d.2 + d.1) then c.r
      else p j := by
  simp only [replace_step, if_pos]
  split_ifs with h3 h2 h1 h0
  · subst h3; rw [Function.update_same]
  · subst h2
    rw [Function.update_noteq (by omega), Function.update_same]
  · subst h1
    rw [Function.update_noteq (by omega), Function.update_noteq (by omega),
      Function.update_same]
  · subst h0
    rw [Function.update_noteq (by omega), Function.update_noteq (by omega),
      Function.update_noteq (by omega), Function.update_same]
  · rw [Function.update_noteq h3, Function.update_noteq h2, Function.update_noteq h1,
      Function.update_noteq h0]

/-- Once all four channels at base address `4 * m` hold the written color,
any further `replace_step` writes of that same color keep them. -/
theorem replace_fold_keep (W : Int) (c : Color) (l : List (Int × Int)) :
    ∀ (p : Int → ℚ) (m : Int),
      p (4 * m) = c.r → p (4 * m + 1) = c.g → p (4 * m + 2) = c.b → p (4 * m + 3) = c.a →
      (l.foldl (replace_step W c true) p) (4 * m) = c.r ∧
      (l.foldl (replace_step W c true) p) (4 * m + 1) = c.g ∧
      (l.foldl (replace_step W c true) p) (4 * m + 2) = c.b ∧
      (l.foldl (replace_step W c true) p) (4 * m + 3) = c.a := by
  induction l with
  | nil => intro p m h0 h1 h2 h3; exact ⟨h0, h1, h2, h3⟩
  | cons e l ih =>
      intro p m h0 h1 h2 h3
      apply ih
      all_goals
        rw [replace_step_true_apply]
        generalize W * e.2 + e.1 = k
        split_ifs <;> first | rfl | omega | assumption

/-- After `draw_replace` with `replace_alpha = true`, every visited dot's
four channels hold the written color. -/
theorem replace_fold_mem (W : Int) (c : Color) (dots : List (Int × Int)) :
    ∀ (p : Int → ℚ) (d : Int × Int), d ∈ dots →
      (dots.foldl (replace_step W c true) p) (4 * (W * d.2 + d.1)) = c.r ∧
      (dots.foldl (replace_step W c true) p) (4 * (W * d.2 + d.1) + 1) = c.g ∧
      (dots.foldl (replace_step W c true) p) (4 * (W * d.2 + d.1) + 2) = c.b ∧
      (dots.foldl (replace_step W c true) p) (4 * (W * d.2 + d.1) + 3) = c.a := by
  induction dots with
  | nil => intro p d hd; cases hd
  | cons e l ih =>
      intro p d hd
      rcases List.mem_cons.mp hd with rfl | hd2
      · rw [List.foldl_cons]
        apply replace_fold_keep
        all_goals
          rw [replace_step_true_apply]
          generalize W * d.2 + d.1 = k
          split_ifs <;> first | rfl | omega
      · exact ih (replace_step W c true p e) d hd2

/-- C2: `draw_alpha` with incoming alpha 0 leaves the image unchanged;
with incoming alpha `a > 0` each visited pixel is updated by exactly
`deltaAlpha = a * (1 - da_dst)`, `outAlpha = da_dst + deltaAlpha`, each
color channel becoming `(destChannel * a + srcChannel * deltaAlpha) / outAlpha`
and the alpha becoming `outAlpha`, other addresses untouched, dots being
visited sequentially; destination `(0.2, 0.2, 0.2, 0.5)` with incoming
`(1, 0, 0, 1)` yields output red `0.7` and output alpha `1`. -/
theorem draw_alpha_spec :
    (∀ (img : Img) (dots : List (Int × Int)) (c : Color), c.a = 0 →
      draw_alpha img dots c = img) ∧
    (∀ (img : Img) (x y : Int) (c : Color), 0 < c.a →
      ∀ A : Int, A = 4 * (img.width * y + x) →
      (draw_alpha img [(x, y)] c).pix A =
        (img.pix A * c.a + c.r * (c.a * (1 - img.pix (A + 3)))) /
          (img.pix (A + 3) + c.a * (1 - img.pix (A + 3))) ∧
      (draw_alpha img [(x, y)] c).pix (A + 1) =
        (img.pix (A + 1) * c.a + c.g * (c.a * (1 - img.pix (A + 3)))) /
          (img.pix (A + 3) + c.a * (1 - img.pix (A + 3))) ∧
      (draw_alpha img [(x, y)] c).pix (A + 2) =
        (img.pix (A + 2) * c.a + c.b * (c.a * (1 - img.pix (A + 3)))) /
          (img.pix (A + 3) + c.a * (1 - img.pix (A + 3))) ∧
      (draw_alpha img [(x, y)] c).pix (A + 3) =
        img.pix (A + 3) + c.a * (1 - img.pix (A + 3)) ∧
      (∀ j : Int, j < A ∨ A + 3 < j → (draw_alpha img [(x, y)] c).pix j = img.pix j)) ∧
    (∀ (img : Img) (d : Int × Int) (rest : List (Int × Int)) (c : Color), c.a ≠ 0 →
      draw_alpha img (d :: rest) c = draw_alpha (draw_alpha img [d] c) rest c) ∧
    ((draw_alpha ⟨1, fun j => if j = 3 then (1/2 : ℚ) else 1/5⟩ [(0, 0)] ⟨1, 0, 0, 1⟩).pix 0 =
        7/10 ∧
      (draw_alpha ⟨1, fun j => if j = 3 then (1/2 : ℚ) else 1/5⟩ [(0, 0)] ⟨1, 0, 0, 1⟩).pix 3 =
        1) := by
  refine ⟨?_, ?_, ?_, ?_, ?_⟩
  · intro img dots c hc
    simp [draw_alpha, hc]
  · intro img x y c hc A hA
    have hne : c.a ≠ 0 := ne_of_gt hc
    simp only [draw_alpha, if_neg hne, List.foldl_cons, List.foldl_nil, ← hA]
    refine ⟨?_, ?_, ?_, ?_, ?_⟩
    · rw [alphaBlendPix_apply, if_neg (by omega), if_neg (by omega), if_neg (by omega),
        if_pos rfl]
    · rw [alphaBlendPix_apply, if_neg (by omega), if_neg (by omega), if_pos rfl]
    · rw [alphaBlendPix_apply, if_neg (by omega), if_pos rfl]
    · rw [alphaBlendPix_apply, if_pos rfl]
    · intro j hj
      rw [alphaBlendPix_apply, if_neg (by omega), if_neg (by omega), if_neg (by omega),
        if_neg (by omega)]
  · intro img d rest c hc
    simp [draw_alpha, hc]
  · norm_num [draw_alpha, alphaBlendPix, Function.update]
  · norm_num [draw_alpha, alphaBlendPix, Function.update]

/-- Witness for `draw_alpha_spec` at destination alpha `1/2`, incoming
`(1, 0, 0, 1)`. -/
theorem draw_alpha_spec_witness :
    (0 : ℚ) < 1 ∧
    (draw_alpha ⟨1, fun j => if j = 3 then (1/2 : ℚ) else 1/5⟩ [(0, 0)] ⟨1, 0, 0, 1⟩).pix (0 + 3) =
      (1/2 : ℚ) + 1 * (1 - 1/2) := by
  refine ⟨by norm_num, ?_⟩
  have h := (draw_alpha_spec.2.1 ⟨1, fun j => if j = 3 then (1/2 : ℚ) else 1/5⟩ 0 0
    ⟨1, 0, 0, 1⟩ (by norm_num) 0 (by norm_num)).2.2.2.1
  norm_num at h ⊢
  exact h

/-- C3: `draw_simple` with alpha exactly 1 replaces all four channels with
the given color at every visited dot; with alpha exactly 0 it writes
`(0, 0, 0, 0)` at every visited dot regardless of the color's RGB (e.g.
input `(1, 0, 0, 0)` stores `(0, 0, 0, 0)`); and for alpha strictly
between 0 and 1 it equals `draw_alpha` on the same pixels and color. -/
theorem draw_simple_spec :
    (∀ (img : Img) (dots : List (Int × Int)) (c : Color), c.a = 1 →
      ∀ d ∈ dots,
        (draw_simple img dots c).pix (4 * (img.width * d.2 + d.1)) = c.r ∧
        (draw_simple img dots c).pix (4 * (img.width * d.2 + d.1) + 1) = c.g ∧
        (draw_simple img dots c).pix (4 * (img.width * d.2 + d.1) + 2) = c.b ∧
        (draw_simple img dots c).pix (4 * (img.width * d.2 + d.1) + 3) = c.a) ∧
    (∀ (img : Img) (dots : List (Int × Int)) (c : Color), c.a = 0 →
      ∀ d ∈ dots,
        (draw_simple img dots c).pix (4 * (img.width * d.2 + d.1)) = 0 ∧
        (draw_simple img dots c).pix (4 * (img.width * d.2 + d.1) + 1) = 0 ∧
        (draw_simple img dots c).pix (4 * (img.width * d.2 + d.1) + 2) = 0 ∧
        (draw_simple img dots c).pix (4 * (img.width * d.2 + d.1) + 3) = 0) ∧
    (∀ (img : Img) (dots : List (Int × Int)) (c : Color), 0 < c.a → c.a < 1 →
      draw_simple img dots c = draw_alpha img dots c) ∧
    ((draw_simple ⟨1, fun _ => (1/3 : ℚ)⟩ [(0, 0)] ⟨1, 0, 0, 0⟩).pix 0 = 0 ∧
      (draw_simple ⟨1, fun _ => (1/3 : ℚ)⟩ [(0, 0)] ⟨1, 0, 0, 0⟩).pix 1 = 0 ∧
      (draw_simple ⟨1, fun _ => (1/3 : ℚ)⟩ [(0, 0)] ⟨1, 0, 0, 0⟩).pix 2 = 0 ∧
      (draw_simple ⟨1, fun _ => (1/3 : ℚ)⟩ [(0, 0)] ⟨1, 0, 0, 0⟩).pix 3 = 0) := by
  refine ⟨?_, ?_, ?_, ?_⟩
  · intro img dots c hc d hd
    simp only [draw_simple, if_pos hc]
    exact replace_fold_mem img.width c dots img.pix d hd
  · intro img dots c hc d hd
    have h1 : c.a ≠ 1 := by rw [hc]; norm_num
    simp only [draw_simple, if_neg h1, if_pos hc]
    exact replace_fold_mem img.width ⟨0, 0, 0, 0⟩ dots img.pix d hd
  · intro img dots c hc0 hc1
    simp only [draw_simple, if_neg (ne_of_lt hc1), if_neg (ne_of_gt hc0)]
  · norm_num [draw_simple, draw_replace, replace_step, Function.update]

/-- Witness for `draw_simple_spec` at a concrete fully-opaque red write. -/
theorem draw_simple_spec_witness :
    ((⟨1, 0, 0, 1⟩ : Color).a = 1 ∧ ((0, 0) : Int × Int) ∈ [((0, 0) : Int × Int)]) ∧
    (draw_simple ⟨1, fun _ => (1/3 : ℚ)⟩ [(0, 0)] ⟨1, 0, 0, 1⟩).pix
      (4 * ((1 : Int) * 0 + 0)) = (1 : ℚ) := by
  refine ⟨⟨rfl, by simp⟩, ?_⟩
  exact (draw_simple_spec.1 ⟨1, fun _ => (1/3 : ℚ)⟩ [(0, 0)] ⟨1, 0, 0, 1⟩ rfl
    (0, 0) (by simp)).1

/-- C10: for `draw_alpha` with incoming alpha `0 < a ≤ 1` and destination
alpha in `[0, 1]`, the per-channel divisor `outa = dst + a * (1 - dst)`
(also the stored output alpha) is strictly positive, so no division by
zero occurs; the `a = 0` case returns before any division. -/
theorem draw_alpha_divisor_pos :
    (∀ (p : Int → ℚ) (addr : Int) (c : Color),
      0 < c.a → c.a ≤ 1 → 0 ≤ p (addr + 3) → p (addr + 3) ≤ 1 →
      alphaBlendPix p addr c (addr + 3) = p (addr + 3) + c.a * (1 - p (addr + 3)) ∧
      0 < alphaBlendPix p addr c (addr + 3)) ∧
    (∀ (img : Img) (dots : List (Int × Int)) (c : Color), c.a = 0 →
      draw_alpha img dots c = img) := by
  constructor
  · intro p addr c ha0 ha1 hd0 hd1
    have heq : alphaBlendPix p addr c (addr + 3) = p (addr + 3) + c.a * (1 - p (addr + 3)) := by
      simp only [alphaBlendPix]
      rw [Function.update_same]
    refine ⟨heq, ?_⟩
    rw [heq]
    nlinarith [mul_nonneg hd0 (by linarith : (0 : ℚ) ≤ 1 - c.a)]
  · intro img dots c hc
    simp [draw_alpha, hc]

/-- Witness for `draw_alpha_divisor_pos` at destination alpha 0, incoming
alpha 1. -/
theorem draw_alpha_divisor_pos_witness :
    ((0 : ℚ) < 1 ∧ (1 : ℚ) ≤ 1 ∧ (0 : ℚ) ≤ 0 ∧ (0 : ℚ) ≤ 1) ∧
    0 < alphaBlendPix (fun _ => (0 : ℚ)) 0 ⟨0, 0, 0, 1⟩ (0 + 3) := by
  refine ⟨by norm_num, ?_⟩
  exact (draw_alpha_divisor_pos.1 (fun _ => (0 : ℚ)) 0 ⟨0, 0, 0, 1⟩
    (by norm_num) (by norm_num) (by norm_num) (by norm_num)).2

/- ### C4: ChangeName -/

/-- C4 counterexample: `ChangeName` with new name `"B.PNG"` — an uppercase
raster extension, hence matched by the claim's case-insensitive suffix
rule — clears the load path instead of setting it, because the code's
regex `\.(?:png|jpg|jpeg|bmp|tga)$` is case-sensitive. -/
theorem changeName_case_counterexample :
    changeName_execute "a" "B.PNG" [⟨"a", "a", "a"⟩] = [⟨"B.PNG", "", "a"⟩] ∧
    spec_matches_raster_ext_ci "B.PNG" = true := by
  constructor
  · decide
  · decide

/-- C4 (amended): for every `ChangeName` application, every open image whose
tracked source, load path, or resource name equals the old name gets its
tracked source set to the new name, and its load path set to the new name
when the new name ends with one of `.png .jpg .jpeg .bmp .tga`
case-SENSITIVELY (suffix match), cleared otherwise; unmatched images are
untouched. A name ending in `.png` sets both fields, one ending in
`.aseprite` clears the load path while updating the tracked source. -/
theorem changeName_spec :
    (∀ (old_name new_name : String) (imgs : List NImage) (i : Nat) (img : NImage),
      imgs[i]? = some img →
      (old_name = img.source_abs ∨ old_name = img.filepath ∨ old_name = img.name →
        (changeName_execute old_name new_name imgs)[i]? =
          some { source_abs := new_name,
                 filepath := if matches_raster_ext new_name then new_name else "",
                 name := img.name }) ∧
      (¬(old_name = img.source_abs ∨ old_name = img.filepath ∨ old_name = img.name) →
        (changeName_execute old_name new_name imgs)[i]? = some img)) ∧
    (changeNameImage "a" "b.png" ⟨"a", "x", "a"⟩ = ⟨"b.png", "b.png", "a"⟩ ∧
      changeNameImage "a" "b.aseprite" ⟨"a", "x", "a"⟩ = ⟨"b.aseprite", "", "a"⟩) := by
  refine ⟨?_, by decide, by decide⟩
  intro old_name new_name imgs i img himg
  constructor
  · intro hmatch
    rw [changeName_execute, List.getElem?_map, himg, Option.map_some']
    rw [changeNameImage, if_pos hmatch]
  · intro hmatch
    rw [changeName_execute, List.getElem?_map, himg, Option.map_some']
    rw [changeNameImage, if_neg hmatch]

/-- Witness for `changeName_spec`, renaming to a lowercase `.png` path. -/
theorem changeName_spec_witness :
    (([⟨"s", "f", "n"⟩] : List NImage)[0]? = some ⟨"s", "f", "n"⟩ ∧
      (("n" = "s") ∨ ("n" = "f") ∨ ("n" = "n"))) ∧
    (changeName_execute "n" "t.png" [⟨"s", "f", "n"⟩])[0]? =
      some ⟨"t.png", "t.png", "n"⟩ := by
  refine ⟨⟨rfl, Or.inr (Or.inr rfl)⟩, ?_⟩
  have h := (changeName_spec.1 "n" "t.png" [⟨"s", "f", "n"⟩] 0 ⟨"s", "f", "n"⟩ rfl).1
    (Or.inr (Or.inr rfl))
  have hext : matches_raster_ext "t.png" = true := by decide
  rw [hext] at h
  simpa using h

/- ### C5: scale_image -/

/-- C5, evaluated at the failing input: a 2×1 image `[p0, p1]` prescaled by
2. The code reshapes the flat buffer to `(w, h, 4)` instead of `(h, w, 4)`,
so for this non-square image it stores `[p0, p0, p0, p0, p1, p1, p1, p1]` —
but pixel replication (the function's documented purpose, "scale image
in-place without filtering") requires output pixel `(2, 0)` (flat index 2)
to equal input pixel `(2 / 2, 0 / 2) = (1, 0)` (flat index 1), value `p1`. -/
theorem scale_image_failing_input :
    scale_image 2 1 2 [0, 1] = [0, 0, 0, 0, 1, 1, 1, 1] ∧
    (scale_image 2 1 2 ([0, 1] : List Nat))[0 * (2 * 2) + 2]? = some 0 ∧
    (([0, 1] : List Nat))[0 * 2 + 1]? = some 1 := by
  refine ⟨by decide, by decide, by decide⟩

/- ### C6: spritesheet grid -/

theorem ceil_sqrt_bounds (n : Nat) (hn : 1 ≤ n) :
    (ceil_sqrt n - 1) * (ceil_sqrt n - 1) < n ∧ n ≤ ceil_sqrt n * ceil_sqrt n := by
  have hsl := Nat.sqrt_le n
  have hss := Nat.lt_succ_sqrt n
  simp only [Nat.succ_eq_add_one] at hss
  rw [ceil_sqrt]
  split_ifs with hsq
  · obtain ⟨t, ht⟩ : ∃ t, Nat.sqrt n = t + 1 := by
      refine ⟨Nat.sqrt n - 1, ?_⟩
      have hs1 : 1 ≤ Nat.sqrt n := by
        by_contra h
        have h0 : Nat.sqrt n = 0 := by omega
        rw [h0] at hsq
        omega
      omega
    rw [ht] at hsq ⊢
    simp only [Nat.add_sub_cancel]
    have hexp : (t + 1) * (t + 1) = t * t + 2 * t + 1 := by ring
    omega
  · simp only [Nat.add_sub_cancel]
    omega

theorem ceil_sqrt_pos (n : Nat) (hn : 1 ≤ n) : 1 ≤ ceil_sqrt n := by
  rw [ceil_sqrt]
  split_ifs with hsq
  · by_contra h
    have h0 : Nat.sqrt n = 0 := by omega
    rw [h0] at hsq
    omega
  · omega

theorem ceil_div_bounds (n c : Nat) (hn : 1 ≤ n) (hc : 1 ≤ c) :
    n ≤ c * ((n + c - 1) / c) ∧ c * ((n + c - 1) / c - 1) < n := by
  have hdm := Nat.div_add_mod (n + c - 1) c
  have hmlt : (n + c - 1) % c < c := Nat.mod_lt _ hc
  have hr1 : 1 ≤ (n + c - 1) / c := (Nat.one_le_div_iff hc).mpr (by omega)
  obtain ⟨q, hq⟩ : ∃ q, (n + c - 1) / c = q + 1 := ⟨(n + c - 1) / c - 1, by omega⟩
  rw [hq] at hdm ⊢
  simp only [Nat.add_sub_cancel]
  have hexp : c * (q + 1) = c * q + c := by ring
  omega

/-- C6: for every frame count `n ≥ 1` the grid satisfies
`columns = ceil(sqrt n)` (characterised by `(columns - 1)² < n ≤ columns²`)
and `rows = ceil(n / columns)` (characterised by
`columns * (rows - 1) < n ≤ columns * rows`); `n = 7` gives `(3, 3)` and
`n = 10` gives `(4, 3)`. -/
theorem sheet_grid_spec :
    (∀ n : Nat, 1 ≤ n →
      (count_x n - 1) * (count_x n - 1) < n ∧
      n ≤ count_x n * count_x n ∧
      n ≤ count_x n * count_y n ∧
      count_x n * (count_y n - 1) < n) ∧
    (count_x 7 = 3 ∧ count_y 7 = 3 ∧ count_x 10 = 4 ∧ count_y 10 = 3) := by
  constructor
  · intro n hn
    have hcx := ceil_sqrt_bounds n hn
    have hc1 : 1 ≤ ceil_sqrt n := ceil_sqrt_pos n hn
    have hd := ceil_div_bounds n (ceil_sqrt n) hn hc1
    rw [count_x, count_y, count_x]
    exact ⟨hcx.1, hcx.2, hd.1, hd.2⟩
  · norm_num [count_x, count_y, ceil_sqrt]

/-- Witness for `sheet_grid_spec` at `n = 7`. -/
theorem sheet_grid_spec_witness :
    1 ≤ 7 ∧
    ((count_x 7 - 1) * (count_x 7 - 1) < 7 ∧
      7 ≤ count_x 7 * count_x 7 ∧
      7 ≤ count_x 7 * count_y 7 ∧
      count_x 7 * (count_y 7 - 1) < 7) :=
  ⟨by norm_num, sheet_grid_spec.1 7 (by norm_num)⟩

/- ### C7: pixel conversion and vertical flip -/

theorem npRows_flatten {α : Type} (n : Nat) :
    ∀ (m : Nat) (xs : List α), xs.length = m * n → (npRows m n xs).flatten = xs := by
  intro m
  induction m with
  | zero =>
      intro xs h
      simp only [Nat.zero_mul] at h
      simp [npRows, List.length_eq_zero.mp h]
  | succ m ih =>
      intro xs h
      have hdrop : (xs.drop n).length = m * n := by
        rw [List.length_drop]
        have hexp : (m + 1) * n = m * n + n := by ring
        omega
      simp only [npRows, List.flatten_cons]
      rw [ih (xs.drop n) hdrop, List.take_append_drop]

theorem npRows_rev_flatten_length {α : Type} (n : Nat) (m : Nat) (xs : List α)
    (h : xs.length = m * n) : (npRows m n xs).reverse.flatten.length = m * n := by
  rw [List.length_flatten, List.map_reverse, List.sum_reverse, ← List.length_flatten,
    npRows_flatten n m xs h, h]

/-- Indexing the vertically flipped reshape: entry `(r, k)` of the flipped
buffer is entry `(m - 1 - r, k)` of the original. -/
theorem npRows_rev_flatten_get {α : Type} (n : Nat) :
    ∀ (m : Nat) (xs : List α), xs.length = m * n →
      ∀ (r k : Nat), r < m → k < n →
        ((npRows m n xs).reverse.flatten)[r * n + k]? = xs[(m - 1 - r) * n + k]? := by
  intro m
  induction m with
  | zero => intro xs h r k hr hk; omega
  | succ m ih =>
      intro xs h r k hr hk
      have hdrop : (xs.drop n).length = m * n := by
        rw [List.length_drop]
        have hexp : (m + 1) * n = m * n + n := by ring
        omega
      have hAlen : (npRows m n (xs.drop n)).reverse.flatten.length = m * n :=
        npRows_rev_flatten_length n m (xs.drop n) hdrop
      simp only [npRows, List.reverse_cons, List.flatten_append, List.flatten_cons,
        List.flatten_nil, List.append_nil]
      rcases Nat.lt_or_ge r m with hrm | hrm
      · rw [List.getElem?_append_left (by
          rw [hAlen]
          have h1 : (r + 1) * n ≤ m * n := Nat.mul_le_mul_right n (by omega)
          have h2 : (r + 1) * n = r * n + n := by ring
          omega)]
        rw [ih (xs.drop n) hdrop r k hrm hk, List.getElem?_drop]
        congr 1
        have h1 : (m - r) * n = (m - 1 - r) * n + n := by
          have h2 : m - r = (m - 1 - r) + 1 := by omega
          rw [h2]
          ring
        have h3 : m + 1 - 1 - r = m - r := by omega
        rw [h3]
        omega
      · have hrm2 : r = m := by omega
        subst hrm2
        rw [List.getElem?_append_right (by rw [hAlen]; omega)]
        rw [hAlen]
        have hidx : r * n + k - r * n = k := by omega
        rw [hidx, List.getElem?_take_of_lt hk]
        have hidx2 : r + 1 - 1 - r = 0 := by omega
        rw [hidx2]
        simp

/-- C7: the stored values are the input bytes divided by 255 (so byte 255
becomes exactly 1 and byte 0 exactly 0), and the stored row order is the
vertical reverse of the input row order: stored row `r` is input row
`h - 1 - r`, so input row 0 becomes the last stored row. -/
theorem convert_pixels_spec :
    (∀ (h n : Nat) (data : List Nat), data.length = h * n → 0 < h →
      ∀ (r k : Nat), r < h → k < n →
        (convert_pixels h data)[r * n + k]? =
          (data[(h - 1 - r) * n + k]?).map (fun b : Nat => (b : ℚ) / 255)) ∧
    convert_pixels 1 [255] = [1] ∧ convert_pixels 1 [0] = [0] := by
  refine ⟨?_, ?_, ?_⟩
  · intro h n data hlen hh r k hr hk
    rw [convert_pixels, hlen, Nat.mul_div_cancel_left n (by omega)]
    rw [npRows_rev_flatten_get n h (data.map fun b : Nat => (b : ℚ) / 255)
      (by rw [List.length_map, hlen]) r k hr hk]
    rw [List.getElem?_map]
  · norm_num [convert_pixels, npRows]
  · norm_num [convert_pixels, npRows]

/-- Witness for `convert_pixels_spec` on a 2-row, 1-column buffer. -/
theorem convert_pixels_spec_witness :
    (([1, 2] : List Nat).length = 2 * 1 ∧ 0 < 2 ∧ 0 < 2 ∧ 0 < 1) ∧
    (convert_pixels 2 [1, 2])[0 * 1 + 0]? =
      (([1, 2] : List Nat)[(2 - 1 - 0) * 1 + 0]?).map (fun b : Nat => (b : ℚ) / 255) := by
  refine ⟨⟨rfl, by norm_num, by norm_num, by norm_num⟩, ?_⟩
  exact convert_pixels_spec.1 2 1 [1, 2] rfl (by norm_num) 0 0 (by norm_num) (by norm_num)

/- ### C8: image update targets nothing when no identity matches -/

/-- C8: an image update whose target name matches no open image under the
identity-resolution rule performs no mutation at all: the image list is
returned unchanged (no image created, no pixels, size, or frame touched). -/
theorem update_image_apply_noop :
    ∀ (normpath : String → String) (images : List BImage) (w h : Nat)
      (name : String) (frame : Int) (data : List Nat),
      (∀ img ∈ images, image_name normpath img ≠ name) →
      update_image_apply normpath images w h name frame data = images := by
  intro normpath images w h name frame data habs
  rw [update_image_apply]
  induction images with
  | nil => rfl
  | cons e l ih =>
      rw [update_first,
        if_neg (by
          simp only [beq_iff_eq]
          exact habs e (List.mem_cons_self e l))]
      rw [ih (fun img hm => habs img (List.mem_cons_of_mem e hm))]

/-- Witness for `update_image_apply_noop`: one tracked image, a
non-matching target name. -/
theorem update_image_apply_noop_witness :
    (∀ img ∈ [(⟨"src", false, "", "n", true, false, (1, 1), 0, []⟩ : BImage)],
      image_name id img ≠ "other") ∧
    update_image_apply id [⟨"src", false, "", "n", true, false, (1, 1), 0, []⟩]
        4 4 "other" (-1) [] =
      [⟨"src", false, "", "n", true, false, (1, 1), 0, []⟩] := by
  have hne : ∀ img ∈ [(⟨"src", false, "", "n", true, false, (1, 1), 0, []⟩ : BImage)],
      image_name id img ≠ "other" := by
    intro img hm
    simp only [List.mem_singleton] at hm
    subst hm
    decide
  exact ⟨hne, update_image_apply_noop id _ 4 4 "other" (-1) [] hne⟩

/- ### C9: keyframe timing -/

theorem keyframe_co_get (first fps : ℚ) :
    ∀ (frames : List (ℚ × ℚ)) (t : ℚ) (i : Nat),
      (keyframe_co first fps t frames)[i]? =
        (frames[i]?).map
          (fun p => (first + (t + ((frames.take i).map Prod.snd).sum) * fps / 1000, p.1)) := by
  intro frames
  induction frames with
  | nil => intro t i; simp [keyframe_co]
  | cons e rest ih =>
      intro t i
      obtain ⟨n, dt⟩ := e
      cases i with
      | zero => simp [keyframe_co]
      | succ j =>
          simp only [keyframe_co, List.getElem?_cons_succ]
          rw [ih (t + dt) j]
          rcases hj : rest[j]? with _ | p
          · simp [hj]
          · simp only [hj, Option.map_some', List.take_succ_cons, List.map_cons,
              List.sum_cons, Option.some.injEq, Prod.mk.injEq]
            exact ⟨by ring, trivial⟩

/-- C9: keyframe `i` is placed at horizontal coordinate
`first + (sum of the first i durations) * fps / 1000` with
`fps = renderFps / renderFpsBase`, the accumulator advancing by each
frame's duration after its keyframe is placed; with fps 24 and durations
`[100, 200]` (plus the terminal repeat) successive coordinates are
`first`, `first + 2.4`, `first + 7.2`. -/
theorem keyframe_timing_spec :
    (∀ (first fps : ℚ) (frames : List (ℚ × ℚ)) (i : Nat),
      (keyframe_co first fps 0 frames)[i]? =
        (frames[i]?).map
          (fun p => (first + ((frames.take i).map Prod.snd).sum * fps / 1000, p.1))) ∧
    (∀ first : ℚ,
      keyframe_co first (scene_fps 24 1) 0 (with_terminal [(0, 100), (1, 200)]) =
        [(first, 0), (first + 12/5, 1), (first + 36/5, 1)]) := by
  constructor
  · intro first fps frames i
    rw [keyframe_co_get first fps frames 0 i]
    congr 1
    funext p
    rw [zero_add]
  · intro first
    simp [keyframe_co, with_terminal, scene_fps]
    norm_num

example : line 0 0 5 2 = [(0,0),(1,0),(2,1),(3,1),(4,2),(5,2)] := by decide
example : line 0 0 0 0 = [(0,0)] := by decide
example : line 2 3 (-1) 5 = [(2,3),(1,4),(0,4),(-1,5)] := by decide
example : scale_image 2 1 2 [0, 1] = [0, 0, 0, 0, 1, 1, 1, 1] := by decide
example : convert_pixels 2 [255, 0, 0, 0, 0, 255, 0, 0] = [0, 1, 0, 0, 1, 0, 0, 0] := by
  norm_num [convert_pixels, npRows]
example : count_x 7 = 3 ∧ count_y 7 = 3 ∧ count_x 10 = 4 ∧ count_y 10 = 3 := by
  norm_num [count_x, count_y, ceil_sqrt]
example : keyframe_co 5 24 0 (with_terminal [(0, 100), (1, 200)]) =
    [(5, 0), (5 + 12/5, 1), (5 + 36/5, 1)] := by
  simp [keyframe_co, with_terminal]
  norm_num
